import Mathlib

/-!
Verification of the (multifractal) detrended fluctuation analysis core in
`neurokit2/complexity/fractal_dfa.py`.

The Python functions are shallowly embedded over exact arithmetic: signal
samples and fractal exponents become rationals, the final square roots,
fractional powers and logarithms of the fluctuation/regression stage become
`Real.sqrt`, `Real.rpow` and `Real.log`.  Machine-float rounding and the
IEEE `nan`/`inf` values are outside the embedding; every algebraic step of
the source is reproduced structurally.
-/

namespace FractalDFA

/-- Model of `np.arange(start, stop, step)` on naturals with positive `step`:
numpy produces the `ceil((stop - start) / step)` values `start + i * step`. -/
def arangeNat (start stop step : ℕ) : List ℕ :=
  (List.range ((stop - start + step - 1) / step)).map fun i => start + i * step

/-- Embedding of `_fractal_dfa_getwindow`.  In overlap mode the segment
starts are `np.arange(0, n - window, window // 2)` and each segment is the
`window`-sample slice of the signal at that start.  In non-overlap mode the
signal is truncated to `n - n % window` samples and reshaped into
`n // window` rows of `window` samples (row `j` starts at `j * window`). -/
def _fractal_dfa_getwindow (signal : List ℚ) (n w : ℕ) (overlap : Bool) :
    List (List ℚ) :=
  if overlap then
    (arangeNat 0 (n - w) (w / 2)).map fun i => (signal.drop i).take w
  else
    (List.range (n / w)).map fun j => ((signal.take (n - n % w)).drop (j * w)).take w

theorem arangeNat_length (start stop step : ℕ) :
    (arangeNat start stop step).length = (stop - start + step - 1) / step := by
  simp [arangeNat]

theorem arangeNat_getD (start stop step i : ℕ)
    (h : i < (stop - start + step - 1) / step) :
    (arangeNat start stop step).getD i 0 = start + i * step := by
  unfold arangeNat
  rw [List.getD_eq_getElem _ _ (by simpa [arangeNat] using h)]
  simp

theorem arangeNat_lt_stop (start stop step i : ℕ) (hstep : 0 < step)
    (h : i < (stop - start + step - 1) / step) :
    start + i * step < stop := by
  have hd : 1 ≤ stop - start := by
    rcases Nat.eq_zero_or_pos (stop - start) with h0 | h1
    · rw [h0, Nat.zero_add, Nat.div_eq_of_lt (by omega)] at h
      omega
    · exact h1
  have hc : (stop - start + step - 1) / step = (stop - start - 1) / step + 1 := by
    have he : stop - start + step - 1 = (stop - start - 1) + step := by omega
    rw [he, Nat.add_div_right _ hstep]
  rw [hc] at h
  have h2 : i * step ≤ stop - start - 1 :=
    le_trans (Nat.mul_le_mul_right _ (Nat.lt_succ_iff.mp h)) (Nat.div_mul_le_self _ _)
  omega

theorem getwindow_overlap_getD (signal : List ℚ) (w i : ℕ)
    (h : i < (signal.length - w + w / 2 - 1) / (w / 2)) :
    (_fractal_dfa_getwindow signal signal.length w true).getD i []
      = (signal.drop (i * (w / 2))).take w := by
  unfold _fractal_dfa_getwindow
  rw [if_pos rfl]
  rw [List.getD_eq_getElem _ _ (by simpa [arangeNat] using h)]
  simp [arangeNat]

/-- C1 (amended): for a working series of length `n`, a window `2 ≤ w < n`
and `overlap = true`, the Windower produces segments that start at every
`w / 2` samples from `0` up to but excluding `n - w`, each segment being
exactly `w` samples long; the number of segments is the CEILING
`(n - w + w/2 - 1) / (w/2)` of `(n - w) / (w/2)`, which agrees with the
claimed floor value exactly when `w/2` divides `n - w` (as in the spec's
example `n = 100`, `w = 20`). -/
theorem claim_C1_overlap_window (signal : List ℚ) (w : ℕ) (h2 : 2 ≤ w)
    (hwn : w < signal.length) :
    ((_fractal_dfa_getwindow signal signal.length w true).length
        = (signal.length - w + w / 2 - 1) / (w / 2))
    ∧ ∀ i, i < (_fractal_dfa_getwindow signal signal.length w true).length →
        ((_fractal_dfa_getwindow signal signal.length w true).getD i []
            = (signal.drop (i * (w / 2))).take w
          ∧ i * (w / 2) < signal.length - w
          ∧ ((_fractal_dfa_getwindow signal signal.length w true).getD i []).length = w) := by
  have hlen : (_fractal_dfa_getwindow signal signal.length w true).length
      = (signal.length - w + w / 2 - 1) / (w / 2) := by
    simp [_fractal_dfa_getwindow, arangeNat]
  refine ⟨hlen, fun i hi => ?_⟩
  rw [hlen] at hi
  have hstep : 0 < w / 2 := Nat.div_pos h2 (by omega)
  have hstart : i * (w / 2) < signal.length - w := by
    have := arangeNat_lt_stop 0 (signal.length - w) (w / 2) i hstep (by simpa using hi)
    simpa using this
  have hseg := getwindow_overlap_getD signal w i hi
  refine ⟨hseg, hstart, ?_⟩
  rw [hseg, List.length_take, List.length_drop]
  omega

/-- C1 counterexample: on a length-7 series with window 4 the code produces
2 overlapping segments (starts 0 and 2), while the claimed count
`floor((n - w) / (w // 2)) = floor(3 / 2)` is 1. -/
theorem claim_C1_counterexample :
    (_fractal_dfa_getwindow [0, 1, 2, 3, 4, 5, 6] 7 4 true).length = 2
    ∧ (7 - 4) / (4 / 2) = 1 := by
  constructor
  · decide
  · decide

/-- C1 witness: the amended theorem applied to a concrete length-10 series
with window 4. -/
theorem claim_C1_witness :
    (_fractal_dfa_getwindow [0, 1, 2, 3, 4, 5, 6, 7, 8, 9] 10 4 true).length
      = (10 - 4 + 4 / 2 - 1) / (4 / 2) := by
  have h := claim_C1_overlap_window ([0, 1, 2, 3, 4, 5, 6, 7, 8, 9] : List ℚ) 4
    (by decide) (by decide)
  simpa using h.1

/-- Argument forms accepted by `_sanitize_q`: the `"default"` token, a scalar
exponent, or an explicit sequence of exponents. -/
inductive QArg
  | default
  | scalar (x : ℚ)
  | explicit (l : List ℚ)

/-- Embedding of `_sanitize_q`: the `"default"` token becomes `2` when
`multifractal` is false and `[-5, -3, -1, 0, 1, 3, 5]` when it is true; the
values are then filtered by `(q < -0.1) + (q > 0.1)`.  The trailing
`reshape(-1, 1)` to a column vector is representational and the exponents
are kept as a flat list (the caller reads them back as `q[:, 0]`). -/
def _sanitize_q (qa : QArg) (multifractal : Bool) : List ℚ :=
  let q : List ℚ :=
    match qa with
    | .default => if multifractal then [-5, -3, -1, 0, 1, 3, 5] else [2]
    | .scalar x => [x]
    | .explicit l => l
  q.filter fun x => decide (x < mkRat (-1) 10) || decide (mkRat 1 10 < x)

/-- C5: the ExponentSanitizer keeps exactly the input values whose absolute
value exceeds 0.1, in their original relative order; on the concrete input
`[-5, -0.05, 0, 0.05, 5]` it returns `[-5, 5]`; with the default token and
`multifractal = true` it returns `[-5, -3, -1, 1, 3, 5]`, which never
contains 0. -/
theorem claim_C5_exponent_sanitizer (l : List ℚ) (mf : Bool) :
    _sanitize_q (.explicit l) mf = l.filter (fun x => decide (mkRat 1 10 < |x|))
    ∧ _sanitize_q (.explicit [-5, mkRat (-1) 20, 0, mkRat 1 20, 5]) mf = [-5, 5]
    ∧ _sanitize_q .default true = [-5, -3, -1, 1, 3, 5]
    ∧ (0 : ℚ) ∉ _sanitize_q .default true := by
  have ht : (0 : ℚ) < mkRat 1 10 := by decide
  have hmk : mkRat (-1) 10 = -(mkRat 1 10) := by decide
  have hpt : ∀ x : ℚ, (decide (x < mkRat (-1) 10) || decide (mkRat 1 10 < x))
      = decide (mkRat 1 10 < |x|) := by
    intro x
    rw [← Bool.decide_or, decide_eq_decide, hmk]
    rcases abs_cases x with ⟨he, hx⟩ | ⟨he, hx⟩ <;> rw [he] <;> constructor
    · rintro (h | h)
      · linarith
      · exact h
    · exact fun h => Or.inr h
    · rintro (h | h)
      · linarith
      · linarith
    · exact fun h => Or.inl (by linarith)
  refine ⟨?_, ?_, ?_, ?_⟩
  · show l.filter _ = _
    exact List.filter_congr fun x _ => hpt x
  · cases mf <;> decide
  · decide
  · decide

/-- Error cases of `_fractal_dfa_findscales`. -/
inductive ScaleError
  | tooFew
  | tooSmall
  | tooLarge
deriving DecidableEq

/-- Model of `np.min` on a list of integers (meaningful for nonempty input). -/
def npMin (l : List ℤ) : ℤ := l.foldr min (l.headD 0)

/-- Model of `np.max` on a list of integers (meaningful for nonempty input). -/
def npMax (l : List ℤ) : ℤ := l.foldr max (l.headD 0)

/-- Embedding of `_fractal_dfa_findscales` for an explicit scale list: the
checks `len(scale) < 2`, `np.min(scale) < 2` and `np.max(scale) >= n` are
performed in order and the list is returned unchanged when all pass.  (The
`"default"`/integer branch generates a candidate list with `expspace` from
`..misc`, outside the analysed sources, before the very same checks.) -/
def _fractal_dfa_findscales (n : ℕ) (scale : List ℤ) : Except ScaleError (List ℤ) :=
  if scale.length < 2 then .error .tooFew
  else if npMin scale < 2 then .error .tooSmall
  else if (n : ℤ) ≤ npMax scale then .error .tooLarge
  else .ok scale

theorem foldr_min_le (l : List ℤ) (a : ℤ) : ∀ x ∈ l, l.foldr min a ≤ x := by
  induction l with
  | nil => intro x hx; cases hx
  | cons b t ih =>
    intro x hx
    rcases List.mem_cons.mp hx with rfl | hx
    · exact min_le_left _ _
    · exact le_trans (min_le_right _ _) (ih x hx)

theorem foldr_min_choice (l : List ℤ) (a : ℤ) :
    l.foldr min a = a ∨ l.foldr min a ∈ l := by
  induction l with
  | nil => exact Or.inl rfl
  | cons b t ih =>
    rcases min_cases b (t.foldr min a) with ⟨he, _⟩ | ⟨he, _⟩
    · exact Or.inr (List.mem_cons.mpr (Or.inl (by simpa using he)))
    · rcases ih with h | h
      · exact Or.inl (by simpa [he] using h)
      · exact Or.inr (List.mem_cons.mpr (Or.inr (by simpa [he] using h)))

theorem le_foldr_max (l : List ℤ) (a : ℤ) : ∀ x ∈ l, x ≤ l.foldr max a := by
  induction l with
  | nil => intro x hx; cases hx
  | cons b t ih =>
    intro x hx
    rcases List.mem_cons.mp hx with rfl | hx
    · exact le_max_left _ _
    · exact le_trans (ih x hx) (le_max_right _ _)

theorem foldr_max_choice (l : List ℤ) (a : ℤ) :
    l.foldr max a = a ∨ l.foldr max a ∈ l := by
  induction l with
  | nil => exact Or.inl rfl
  | cons b t ih =>
    rcases max_cases b (t.foldr max a) with ⟨he, _⟩ | ⟨he, _⟩
    · exact Or.inr (List.mem_cons.mpr (Or.inl (by simpa using he)))
    · rcases ih with h | h
      · exact Or.inl (by simpa [he] using h)
      · exact Or.inr (List.mem_cons.mpr (Or.inr (by simpa [he] using h)))

theorem headD_mem_of_ne_nil (l : List ℤ) (hl : l ≠ []) (d : ℤ) : l.headD d ∈ l := by
  cases l with
  | nil => exact absurd rfl hl
  | cons b t => exact List.mem_cons.mpr (Or.inl rfl)

theorem npMin_lt_iff (l : List ℤ) (hl : l ≠ []) (c : ℤ) :
    npMin l < c ↔ ∃ x ∈ l, x < c := by
  constructor
  · intro h
    rcases foldr_min_choice l (l.headD 0) with he | he
    · exact ⟨l.headD 0, headD_mem_of_ne_nil l hl 0, by rwa [npMin, he] at h⟩
    · exact ⟨npMin l, he, h⟩
  · rintro ⟨x, hx, hxc⟩
    exact lt_of_le_of_lt (foldr_min_le l _ x hx) hxc

theorem le_npMax_iff (l : List ℤ) (hl : l ≠ []) (c : ℤ) :
    c ≤ npMax l ↔ ∃ x ∈ l, c ≤ x := by
  constructor
  · intro h
    rcases foldr_max_choice l (l.headD 0) with he | he
    · exact ⟨l.headD 0, headD_mem_of_ne_nil l hl 0, by rwa [npMax, he] at h⟩
    · exact ⟨npMax l, he, h⟩
  · rintro ⟨x, hx, hxc⟩
    exact le_trans hxc (le_foldr_max l _ x hx)

/-- C4 (amended): for an explicit scale list the ScaleSelector raises
exactly when the list has fewer than 2 ELEMENTS (duplicates counted — an
explicit list is NOT deduplicated), or contains a value below 2, or a value
at least the series length `n`; otherwise it returns the list unchanged. -/
theorem claim_C4_findscales (n : ℕ) (scale : List ℤ) :
    (_fractal_dfa_findscales n scale = .ok scale
        ↔ ¬(scale.length < 2 ∨ (∃ x ∈ scale, x < 2) ∨ (∃ x ∈ scale, (n : ℤ) ≤ x)))
    ∧ ((∃ e, _fractal_dfa_findscales n scale = .error e)
        ↔ (scale.length < 2 ∨ (∃ x ∈ scale, x < 2) ∨ (∃ x ∈ scale, (n : ℤ) ≤ x))) := by
  unfold _fractal_dfa_findscales
  by_cases h1 : scale.length < 2
  · simp [h1]
  · have hne : scale ≠ [] := by
      intro he
      rw [he] at h1
      exact h1 (by simp)
    by_cases h2 : npMin scale < 2
    · have : ∃ x ∈ scale, x < 2 := (npMin_lt_iff scale hne 2).mp h2
      simp [h1, h2, this]
    · have hno2 : ¬∃ x ∈ scale, x < 2 := by
        intro hc
        exact h2 ((npMin_lt_iff scale hne 2).mpr hc)
      by_cases h3 : (n : ℤ) ≤ npMax scale
      · have : ∃ x ∈ scale, (n : ℤ) ≤ x := (le_npMax_iff scale hne _).mp h3
        simp [h1, h2, h3, this]
      · have hno3 : ¬∃ x ∈ scale, (n : ℤ) ≤ x := by
          intro hc
          exact h3 ((le_npMax_iff scale hne _).mpr hc)
        simp [h1, h2, h3, hno2, hno3]

/-- C4 counterexample: the duplicated explicit list `[5, 5]` has only one
distinct value, yet on a length-100 series the code accepts it and returns
it unchanged instead of raising. -/
theorem claim_C4_counterexample :
    _fractal_dfa_findscales 100 [5, 5] = .ok [5, 5]
    ∧ ([5, 5] : List ℤ).dedup.length = 1 := by
  constructor
  · rfl
  · decide

/-- Model of unit-spacing `np.gradient` on a list (meaningful for length at
least 2, as numpy requires): forward difference at the first index, backward
difference at the last, central difference `(x[i+1] - x[i-1]) / 2`
elsewhere. -/
def npGradient (xs : List ℚ) : List ℚ :=
  (List.range xs.length).map fun i =>
    if i = 0 then xs.getD 1 0 - xs.getD 0 0
    else if i = xs.length - 1 then xs.getD i 0 - xs.getD (i - 1) 0
    else (xs.getD (i + 1) 0 - xs.getD (i - 1) 0) / 2

/-- Embedding of the `Tau` entry of `_singularity_spectrum`:
`q[:, 0] * slopes - 1`. -/
def tauOf (q slopes : List ℚ) : List ℚ :=
  List.zipWith (fun a b => a * b - 1) q slopes

/-- Embedding of the `H` entry of `_singularity_spectrum`:
`np.gradient(Tau) / np.gradient(q[:, 0])`. -/
def spectrumH (q slopes : List ℚ) : List ℚ :=
  List.zipWith (fun a b => a / b) (npGradient (tauOf q slopes)) (npGradient q)

/-- Embedding of the `D` entry of `_singularity_spectrum`:
`q[:, 0] * H - Tau`. -/
def spectrumD (q slopes : List ℚ) : List ℚ :=
  List.zipWith (fun a b => a - b)
    (List.zipWith (fun a b => a * b) q (spectrumH q slopes)) (tauOf q slopes)

/-- Comparator following the claim's words for C2: the numerical gradient of
`ys` with respect to `xs` at index `i` — central difference over the actual
spacing in the interior, forward/backward difference over the actual
spacing at the two boundaries. -/
def gradientWrt (ys xs : List ℚ) (i : ℕ) : ℚ :=
  if i = 0 then (ys.getD 1 0 - ys.getD 0 0) / (xs.getD 1 0 - xs.getD 0 0)
  else if i = xs.length - 1 then
    (ys.getD i 0 - ys.getD (i - 1) 0) / (xs.getD i 0 - xs.getD (i - 1) 0)
  else (ys.getD (i + 1) 0 - ys.getD (i - 1) 0) / (xs.getD (i + 1) 0 - xs.getD (i - 1) 0)

theorem getD_zipWith (f : ℚ → ℚ → ℚ) (as bs : List ℚ) (i : ℕ)
    (ha : i < as.length) (hb : i < bs.length) :
    (List.zipWith f as bs).getD i 0 = f (as.getD i 0) (bs.getD i 0) := by
  rw [List.getD_eq_getElem _ _ (by rw [List.length_zipWith]; omega),
    List.getD_eq_getElem _ _ ha, List.getD_eq_getElem _ _ hb]
  exact List.getElem_zipWith

theorem npGradient_length (xs : List ℚ) : (npGradient xs).length = xs.length := by
  simp [npGradient]

theorem npGradient_getD (xs : List ℚ) (i : ℕ) (hi : i < xs.length) :
    (npGradient xs).getD i 0
      = if i = 0 then xs.getD 1 0 - xs.getD 0 0
        else if i = xs.length - 1 then xs.getD i 0 - xs.getD (i - 1) 0
        else (xs.getD (i + 1) 0 - xs.getD (i - 1) 0) / 2 := by
  unfold npGradient
  rw [List.getD_eq_getElem _ _ (by simpa using hi)]
  simp

theorem tauOf_length (q h : List ℚ) (hlen : h.length = q.length) :
    (tauOf q h).length = q.length := by
  simp [tauOf, hlen]

/-- C2: on a sanitized exponent set `q` and a slope vector `h` of the same
length (at least 2, as `np.gradient` requires), the
SingularitySpectrumExtractor returns exactly `Tau i = q i * h i - 1`
pointwise, `H` equal to the numerical gradient of `Tau` with respect to `q`
(central differences over the actual `q` spacing in the interior,
forward/backward differences at the two boundaries), and
`D i = q i * H i - Tau i` pointwise. -/
theorem claim_C2_singularity_spectrum (q h : List ℚ) (hlen : h.length = q.length)
    (h2 : 2 ≤ q.length) (i : ℕ) (hi : i < q.length) :
    (tauOf q h).getD i 0 = q.getD i 0 * h.getD i 0 - 1
    ∧ (spectrumH q h).getD i 0 = gradientWrt (tauOf q h) q i
    ∧ (spectrumD q h).getD i 0
        = q.getD i 0 * (spectrumH q h).getD i 0 - (tauOf q h).getD i 0 := by
  have ht : (tauOf q h).length = q.length := tauOf_length q h hlen
  have hgt : (npGradient (tauOf q h)).length = q.length := by
    rw [npGradient_length, ht]
  have hgq : (npGradient q).length = q.length := npGradient_length q
  have htau : (tauOf q h).getD i 0 = q.getD i 0 * h.getD i 0 - 1 := by
    unfold tauOf
    exact getD_zipWith _ q h i hi (by omega)
  have hH : (spectrumH q h).getD i 0 = gradientWrt (tauOf q h) q i := by
    unfold spectrumH
    rw [getD_zipWith _ _ _ i (by omega) (by omega)]
    rw [npGradient_getD _ i (by omega), npGradient_getD _ i (by omega), ht]
    unfold gradientWrt
    by_cases h0 : i = 0
    · simp [h0]
    · by_cases hlast : i = q.length - 1
      · simp only [if_neg h0, if_pos hlast]
      · simp only [if_neg h0, if_neg hlast]
        rw [div_div_div_comm]
        norm_num
  refine ⟨htau, hH, ?_⟩
  have hsl : (spectrumH q h).length = q.length := by
    simp [spectrumH, List.length_zipWith, npGradient_length, ht]
  unfold spectrumD
  rw [getD_zipWith _ _ _ i (by rw [List.length_zipWith, hsl]; omega) (by omega),
    getD_zipWith _ q _ i hi (by rw [hsl]; omega)]

/-- C2 witness: the theorem applied at `q = [1, 2, 3]`, `h = [1, 1, 1]`,
interior index 1. -/
theorem claim_C2_witness :
    (spectrumH [1, 2, 3] [1, 1, 1]).getD 1 0
      = gradientWrt (tauOf [1, 2, 3] [1, 1, 1]) [1, 2, 3] 1 :=
  (claim_C2_singularity_spectrum [1, 2, 3] [1, 1, 1] rfl (by decide) 1 (by decide)).2.1

/-- Mean of a list of rationals (`np.mean`). -/
def listMean (l : List ℚ) : ℚ := l.sum / (l.length : ℚ)

/-- Population variance of a list (`np.var` with `ddof = 0`). -/
def popVar (l : List ℚ) : ℚ := listMean (l.map fun x => (x - listMean l) ^ 2)

/-- Per-segment mean squared value, one row of
`np.sum(detrended ** 2, axis=1) / detrended.shape[1]`. -/
def rowMeanSq (l : List ℚ) : ℚ := (l.map fun x => x ^ 2).sum / (l.length : ℚ)

/-- Mean of a list of reals. -/
noncomputable def realMean (l : List ℝ) : ℝ := l.sum / (l.length : ℝ)

/-- Closed-form least-squares line through the points `(j, y j)` for
`j = 0 .. len y - 1`: the unique minimiser that `np.polyfit(np.arange(w), y, 1)`
computes for `w ≥ 2`, as slope and intercept. -/
def lsqLinFit (y : List ℚ) : ℚ × ℚ :=
  let n : ℚ := (y.length : ℚ)
  let xs : List ℚ := (List.range y.length).map fun (j : ℕ) => ((j : ℕ) : ℚ)
  let slope := (n * (List.zipWith (fun a b => a * b) xs y).sum - xs.sum * y.sum)
    / (n * (xs.map fun a => a * a).sum - xs.sum * xs.sum)
  (slope, (y.sum - slope * xs.sum) / n)

/-- Embedding of `_fractal_dfa_trends` at the source's default polynomial
order 1, the order the pipeline runs at: each segment gets its own
least-squares linear trend, evaluated back over `np.arange(window)` (in
the pipeline every row has length `window`, so the per-row index range
used here coincides with the shared `x`).  The general
`np.polyfit(x, segments.T, order)` call for an arbitrary `order` is
embedded relationally by `IsPolyfit`/`IsTrendBatch` below, and
`trends_isTrendBatch` certifies that this closed-form instance satisfies
that least-squares specification at order 1. -/
def _fractal_dfa_trends (segments : List (List ℚ)) : List (List ℚ) :=
  segments.map fun seg =>
    (List.range seg.length).map fun (j : ℕ) =>
      (lsqLinFit seg).1 * ((j : ℕ) : ℚ) + (lsqLinFit seg).2

/-- Elementwise `detrended = segments - trends` from
`_fractal_dfa_fluctuation`. -/
def detrendedOf (segments trends : List (List ℚ)) : List (List ℚ) :=
  List.zipWith (List.zipWith fun a b => a - b) segments trends

/-- Monofractal branch of `_fractal_dfa_fluctuation`: per-segment mean
square, averaged over the segments, then the square root. -/
noncomputable def fluctuationRMS (detrended : List (List ℚ)) : ℝ :=
  Real.sqrt ((listMean (detrended.map rowMeanSq) : ℚ) : ℝ)

/-- One exponent entry of the multifractal branch:
`np.float_power(np.mean(np.float_power(var, q / 2), axis=1), 1 / q.T)`. -/
noncomputable def fluctuationMF (detrended : List (List ℚ)) (q : ℚ) : ℝ :=
  (realMean (detrended.map fun row => ((popVar row : ℚ) : ℝ) ^ ((q : ℝ) / 2)))
    ^ (1 / (q : ℝ))

/-- Embedding of `_fractal_dfa_fluctuation` as one row of the fluctuation
matrix: the multifractal branch maps `fluctuationMF` over the exponents,
the monofractal branch produces one scalar that numpy broadcasts across the
`len(q)` columns of the row.  The `seterr` bracket of the multifractal
branch is modelled separately in `fluctuationWithErrState`. -/
noncomputable def _fractal_dfa_fluctuation (segments trends : List (List ℚ))
    (multifractal : Bool) (q : List ℚ) : List ℝ :=
  if multifractal then q.map (fluctuationMF (detrendedOf segments trends))
  else List.replicate q.length (fluctuationRMS (detrendedOf segments trends))

theorem sum_map_affine (a b : ℚ) (l : List ℕ) :
    (l.map fun (j : ℕ) => a * ((j : ℕ) : ℚ) + b).sum
      = a * (l.map fun (j : ℕ) => ((j : ℕ) : ℚ)).sum + (l.length : ℚ) * b := by
  induction l with
  | nil => simp
  | cons x t ih =>
    rw [List.map_cons, List.sum_cons, List.map_cons, List.sum_cons, ih, List.length_cons]
    push_cast
    ring

theorem sum_zipWith_sub (s t : List ℚ) (h : s.length = t.length) :
    (List.zipWith (fun a b => a - b) s t).sum = s.sum - t.sum := by
  induction s generalizing t with
  | nil =>
    cases t with
    | nil => simp
    | cons b t => simp at h
  | cons a s ih =>
    cases t with
    | nil => simp at h
    | cons b t =>
      rw [List.zipWith_cons_cons, List.sum_cons, List.sum_cons, List.sum_cons,
        ih t (by simpa using h)]
      ring

theorem trendRow_sum (seg : List ℚ) :
    (((List.range seg.length).map fun (j : ℕ) =>
        (lsqLinFit seg).1 * ((j : ℕ) : ℚ) + (lsqLinFit seg).2)).sum = seg.sum := by
  rcases Nat.eq_zero_or_pos seg.length with h0 | hpos
  · rw [List.length_eq_zero.mp h0]
    simp
  · rw [sum_map_affine, List.length_range]
    have hn : ((seg.length : ℚ)) ≠ 0 := by
      exact_mod_cast Nat.pos_iff_ne_zero.mp hpos
    have hb : (lsqLinFit seg).2
        = (seg.sum - (lsqLinFit seg).1
            * ((List.range seg.length).map fun (j : ℕ) => ((j : ℕ) : ℚ)).sum)
          / (seg.length : ℚ) := rfl
    rw [hb]
    field_simp

theorem detrended_resid_rows (segments : List (List ℚ)) :
    detrendedOf segments (_fractal_dfa_trends segments)
      = segments.map fun seg => List.zipWith (fun a b => a - b) seg
          ((List.range seg.length).map fun (j : ℕ) =>
            (lsqLinFit seg).1 * ((j : ℕ) : ℚ) + (lsqLinFit seg).2) := by
  induction segments with
  | nil => rfl
  | cons s t ih =>
    simp only [detrendedOf, _fractal_dfa_trends, List.map_cons, List.zipWith_cons_cons] at ih ⊢
    rw [ih]

theorem detrended_row_sum_zero (segments : List (List ℚ)) :
    ∀ row ∈ detrendedOf segments (_fractal_dfa_trends segments), row.sum = 0 := by
  intro row hrow
  rw [detrended_resid_rows] at hrow
  rcases List.mem_map.mp hrow with ⟨seg, _, rfl⟩
  rw [sum_zipWith_sub seg _ (by simp), trendRow_sum]
  ring

theorem popVar_eq_rowMeanSq_of_sum_zero (l : List ℚ) (h : l.sum = 0) :
    popVar l = rowMeanSq l := by
  unfold popVar rowMeanSq listMean
  rw [h, zero_div]
  simp [sub_zero]

theorem rat_cast_list_sum (l : List ℚ) :
    ((l.sum : ℚ) : ℝ) = (l.map fun x => ((x : ℚ) : ℝ)).sum := by
  induction l with
  | nil => simp
  | cons a t ih =>
    rw [List.map_cons, List.sum_cons, List.sum_cons]
    push_cast [ih]
    ring

theorem realMean_map_cast (l : List ℚ) :
    realMean (l.map fun x => ((x : ℚ) : ℝ)) = ((listMean l : ℚ) : ℝ) := by
  unfold realMean listMean
  rw [← rat_cast_list_sum, List.length_map]
  push_cast
  ring

theorem q2_rows_eq (segments trends : List (List ℚ))
    (hres : ∀ row ∈ detrendedOf segments trends, row.sum = 0) :
    listMean ((detrendedOf segments trends).map popVar)
      = listMean ((detrendedOf segments trends).map rowMeanSq)
    ∧ _fractal_dfa_fluctuation segments trends true [2]
      = _fractal_dfa_fluctuation segments trends false [2] := by
  have hmaps : (detrendedOf segments trends).map popVar
      = (detrendedOf segments trends).map rowMeanSq :=
    List.map_congr_left fun row hrow =>
      popVar_eq_rowMeanSq_of_sum_zero row (hres row hrow)
  refine ⟨by rw [hmaps], ?_⟩
  unfold _fractal_dfa_fluctuation
  rw [if_pos rfl, if_neg (by simp)]
  rw [List.map_cons, List.map_nil, List.length_cons, List.length_nil,
    List.replicate_one]
  congr 1
  unfold fluctuationMF fluctuationRMS
  have h2e : (((2 : ℚ) : ℝ)) / 2 = 1 := by norm_num
  simp only [h2e, Real.rpow_one]
  have hc : (detrendedOf segments trends).map
        (fun row => ((popVar row : ℚ) : ℝ))
      = ((detrendedOf segments trends).map popVar).map
        (fun x => ((x : ℚ) : ℝ)) := by
    rw [List.map_map]
    rfl
  rw [hc, realMean_map_cast, hmaps]
  rw [Real.sqrt_eq_rpow]
  norm_num

/-- Embedding of `np.polyval(coefs, x)` by Horner's rule, highest degree
coefficient first. -/
def polyEval (coefs : List ℚ) (x : ℚ) : ℚ :=
  coefs.foldl (fun acc c => acc * x + c) 0

/-- Polynomial trend row `np.polyval(coefs, np.arange(window))`. -/
def trendRowOf (coefs : List ℚ) (w : ℕ) : List ℚ :=
  (List.range w).map fun (j : ℕ) => polyEval coefs ((j : ℕ) : ℚ)

/-- Sum of squared residuals of `y` against the polynomial `coefs` over the
index range `np.arange(len(y))` — the objective that `np.polyfit`
minimises. -/
def sse (y coefs : List ℚ) : ℚ :=
  ((List.zipWith (fun a b => a - b) y (trendRowOf coefs y.length)).map
    fun r => r ^ 2).sum

/-- Defining property of `np.polyfit(np.arange(len(y)), y, order)`: a
coefficient vector of length `order + 1` (hence always including a
constant term) minimising the sum of squared residuals among all vectors
of that length. -/
def IsPolyfit (y : List ℚ) (order : ℕ) (coefs : List ℚ) : Prop :=
  coefs.length = order + 1 ∧ ∀ c', c'.length = order + 1 → sse y coefs ≤ sse y c'

/-- Relational embedding of `_fractal_dfa_trends` at an arbitrary
polynomial order: `trends` is a valid trend batch for `segments` when each
row is a least-squares order-`order` polynomial fit of its segment
(`np.polyfit(x, segments.T, order)`) evaluated back over the window
(`np.polyval(coefs[j], x)`). -/
def IsTrendBatch (segments trends : List (List ℚ)) (order : ℕ) : Prop :=
  trends.length = segments.length
  ∧ ∀ i, i < segments.length → ∃ coefs, IsPolyfit (segments.getD i []) order coefs
      ∧ trends.getD i [] = trendRowOf coefs (segments.getD i []).length

theorem trendRowOf_length (coefs : List ℚ) (w : ℕ) :
    (trendRowOf coefs w).length = w := by
  simp [trendRowOf]

theorem sse_nonneg (y coefs : List ℚ) : 0 ≤ sse y coefs :=
  List.sum_nonneg fun x hx => by
    rcases List.mem_map.mp hx with ⟨a, _, rfl⟩
    exact sq_nonneg a

theorem polyEval_append_last (l : List ℚ) (c x : ℚ) :
    polyEval (l ++ [c]) x = polyEval l x * x + c := by
  unfold polyEval
  rw [List.foldl_append]
  rfl

theorem polyEval_bump (coefs : List ℚ) (h : coefs ≠ []) (t x : ℚ) :
    polyEval (coefs.dropLast ++ [coefs.getLast h + t]) x = polyEval coefs x + t := by
  conv_rhs => rw [← List.dropLast_append_getLast h]
  rw [polyEval_append_last, polyEval_append_last]
  ring

theorem zipWith_sub_map_add (y : List ℚ) (t : ℚ) :
    ∀ trend : List ℚ,
      List.zipWith (fun a b => a - b) y (trend.map fun a => a + t)
        = (List.zipWith (fun a b => a - b) y trend).map fun a => a - t := by
  induction y with
  | nil => intro trend; simp
  | cons a ys ih =>
    intro trend
    cases trend with
    | nil => simp
    | cons b tr =>
      rw [List.map_cons, List.zipWith_cons_cons, List.zipWith_cons_cons,
        List.map_cons, ih]
      congr 1
      ring

theorem sum_map_sub_sq (r : List ℚ) (t : ℚ) :
    (r.map fun a => (a - t) ^ 2).sum
      = (r.map fun a => a ^ 2).sum - 2 * t * r.sum + (r.length : ℚ) * t ^ 2 := by
  induction r with
  | nil => simp
  | cons a rs ih =>
    rw [List.map_cons, List.sum_cons, List.map_cons, List.sum_cons, List.sum_cons,
      ih, List.length_cons]
    push_cast
    ring

/-- A least-squares polynomial fit with a constant term leaves residuals
that sum to zero: perturbing only the constant coefficient by `t` changes
the objective by `len * t ^ 2 - 2 * t * (residual sum)`, which stays
nonnegative for every `t` only when the residual sum vanishes. -/
theorem polyfit_resid_sum_zero (y : List ℚ) (order : ℕ) (coefs : List ℚ)
    (hfit : IsPolyfit y order coefs) :
    (List.zipWith (fun a b => a - b) y (trendRowOf coefs y.length)).sum = 0 := by
  rcases hfit with ⟨hlen, hmin⟩
  rcases Nat.eq_zero_or_pos y.length with h0 | hpos
  · rw [List.length_eq_zero.mp h0]
    rfl
  · have hne : coefs ≠ [] := by
      intro hc
      rw [hc] at hlen
      simp at hlen
    set r := List.zipWith (fun a b => a - b) y (trendRowOf coefs y.length) with hr
    have hrlen : r.length = y.length := by
      rw [hr, List.length_zipWith, trendRowOf_length]
      omega
    have key : ∀ t : ℚ, 0 ≤ (y.length : ℚ) * t ^ 2 - 2 * t * r.sum := by
      intro t
      have hclen : (coefs.dropLast ++ [coefs.getLast hne + t]).length = order + 1 := by
        rw [List.length_append, List.length_dropLast]
        simp only [List.length_cons, List.length_nil]
        omega
      have hmin2 := hmin _ hclen
      have hs1 : sse y coefs = (r.map fun a => a ^ 2).sum := by
        unfold sse
        rw [← hr]
      have htrow : trendRowOf (coefs.dropLast ++ [coefs.getLast hne + t]) y.length
          = (trendRowOf coefs y.length).map fun a => a + t := by
        unfold trendRowOf
        rw [List.map_map]
        exact List.map_congr_left fun j _ => polyEval_bump coefs hne t _
      have hs2 : sse y (coefs.dropLast ++ [coefs.getLast hne + t])
          = (r.map fun a => (a - t) ^ 2).sum := by
        unfold sse
        rw [htrow, zipWith_sub_map_add, ← hr, List.map_map]
        rfl
      rw [hs1, hs2, sum_map_sub_sq, hrlen] at hmin2
      linarith
    have hw : (0 : ℚ) < (y.length : ℚ) := by exact_mod_cast hpos
    have h1 := key (r.sum / (y.length : ℚ))
    have h2 : (y.length : ℚ) * (r.sum / (y.length : ℚ)) ^ 2
        - 2 * (r.sum / (y.length : ℚ)) * r.sum
        = -(r.sum ^ 2) / (y.length : ℚ) := by
      field_simp
      ring
    rw [h2] at h1
    have h3 : r.sum ^ 2 ≤ 0 := by
      by_contra hcon
      push_neg at hcon
      have : -(r.sum ^ 2) / (y.length : ℚ) < 0 :=
        div_neg_of_neg_of_pos (by linarith) hw
      linarith
    have h4 : r.sum ^ 2 = 0 := le_antisymm h3 (sq_nonneg _)
    exact pow_eq_zero_iff (by norm_num) |>.mp h4

theorem getD_detrended (segments trends : List (List ℚ)) (i : ℕ)
    (h1 : i < segments.length) (h2 : i < trends.length) :
    (detrendedOf segments trends).getD i []
      = List.zipWith (fun a b => a - b) (segments.getD i []) (trends.getD i []) := by
  unfold detrendedOf
  rw [List.getD_eq_getElem _ _ (by rw [List.length_zipWith]; omega),
    List.getD_eq_getElem _ _ h1, List.getD_eq_getElem _ _ h2]
  exact List.getElem_zipWith

/-- Every row of the detrended batch of a valid least-squares trend batch
sums to zero. -/
theorem trendBatch_resid_zero (segments trends : List (List ℚ)) (order : ℕ)
    (hfit : IsTrendBatch segments trends order) :
    ∀ row ∈ detrendedOf segments trends, row.sum = 0 := by
  intro row hrow
  rcases hfit with ⟨hlen, hco⟩
  rcases List.mem_iff_getElem.mp hrow with ⟨i, hi, heq⟩
  have hi2 : i < segments.length := by
    rw [detrendedOf, List.length_zipWith] at hi
    omega
  rcases hco i hi2 with ⟨coefs, hpf, htr⟩
  have hrow_eq : row = (detrendedOf segments trends).getD i [] := by
    rw [List.getD_eq_getElem _ _ hi, heq]
  rw [hrow_eq, getD_detrended segments trends i hi2 (by omega), htr]
  exact polyfit_resid_sum_zero _ order coefs hpf

/-- Error taxonomy of the `fractal_dfa` entry point. -/
inductive DFAError
  | dimensionality
  | invalidScale (e : ScaleError)

/-- Input signal as a 1-D or 2-D array, with its `ndim`. -/
inductive Signal
  | one (l : List ℚ)
  | two (rows : List (List ℚ))

/-- Number of array dimensions (`signal.ndim`). -/
def Signal.ndim : Signal → ℕ
  | .one _ => 1
  | .two _ => 2

/-- Underlying flat data of the input. -/
def Signal.data : Signal → List ℚ
  | .one l => l
  | .two rows => rows.flatten

/-- Running cumulative sum with accumulator (`np.cumsum`). -/
def cumsumFrom (acc : ℚ) : List ℚ → List ℚ
  | [] => []
  | x :: xs => (acc + x) :: cumsumFrom (acc + x) xs

/-- Signal profile `np.cumsum(signal - np.mean(signal))` used when
`integrate` is true. -/
def signalProfile (l : List ℚ) : List ℚ :=
  cumsumFrom 0 (l.map fun x => x - listMean l)

theorem cumsumFrom_length (l : List ℚ) : ∀ acc, (cumsumFrom acc l).length = l.length := by
  induction l with
  | nil => intro acc; rfl
  | cons x xs ih => intro acc; simp [cumsumFrom, ih]

theorem signalProfile_length (l : List ℚ) : (signalProfile l).length = l.length := by
  rw [signalProfile, cumsumFrom_length, List.length_map]

/-- Result record of a completed run: scale set, sanitized exponent set,
fluctuation matrix (one row per scale, one column per exponent) and slope
vector. -/
structure DFAFit where
  scale : List ℤ
  q : List ℚ
  fluctuations : List (List ℝ)
  slopes : List ℝ

/-- Base-2 logarithm over the reals (`np.log2`). -/
noncomputable def log2 (x : ℝ) : ℝ := Real.log x / Real.log 2

/-- Slope of the degree-1 least-squares fit `np.polyfit(x, y, 1)[0]` in
closed form. -/
noncomputable def polyfitSlope (x y : List ℝ) : ℝ :=
  ((x.length : ℝ) * (List.zipWith (fun a b => a * b) x y).sum - x.sum * y.sum)
    / ((x.length : ℝ) * (x.map fun a => a * a).sum - x.sum * x.sum)

/-- Embedding of `_slopes` (the ScalingRegressor): one degree-1 fit of
`log2(fluctuations[:, i])` against `log2(scale)` per exponent.  The
`seterr` save/restore bracket around each fit is modelled in
`slopesWithErrState`; the dimension-mismatch guard is never reached from
`fractal_dfa`, whose matrix rows always have `len(q)` columns. -/
noncomputable def _slopes (scale : List ℤ) (fluctuations : List (List ℝ))
    (q : List ℚ) : List ℝ :=
  (List.range q.length).map fun i =>
    polyfitSlope (scale.map fun w => log2 ((w : ℤ) : ℝ))
      (fluctuations.map fun row => log2 (row.getD i 0))

/-- Computation core of `fractal_dfa` after validation: profile the signal
when `integrate` is set, build one fluctuation row per scale through
Windower, Detrender and FluctuationEstimator, then regress. -/
noncomputable def dfaCompute (sig : List ℚ) (scale : List ℤ)
    (overlap integrate multifractal : Bool) (q : List ℚ) : DFAFit :=
  let n := sig.length
  let work := if integrate then signalProfile sig else sig
  let fluctuations := scale.map fun w =>
    _fractal_dfa_fluctuation (_fractal_dfa_getwindow work n w.toNat overlap)
      (_fractal_dfa_trends (_fractal_dfa_getwindow work n w.toNat overlap))
      multifractal q
  ⟨scale, q, fluctuations, _slopes scale fluctuations q⟩

/-- Outcome of `fractal_dfa`: either the degenerate `np.nan` early return
taken when the fluctuation matrix has zero rows (paired with the `info`
fields collected so far), or the completed fit. -/
inductive DFAOut
  | nan (scale : List ℤ) (q : List ℚ)
  | result (fit : DFAFit)

/-- Embedding of the `fractal_dfa` entry point: the dimensionality guard
runs first, then scale validation, exponent sanitization, the computation
core, and the empty-matrix short-circuit. -/
noncomputable def fractal_dfa (signal : Signal) (scaleArg : List ℤ)
    (overlap integrate multifractal : Bool) (qa : QArg) :
    Except DFAError DFAOut :=
  if 1 < signal.ndim then .error .dimensionality
  else
    match _fractal_dfa_findscales signal.data.length scaleArg with
    | .error e => .error (.invalidScale e)
    | .ok scale =>
      let q := _sanitize_q qa multifractal
      let fit := dfaCompute signal.data scale overlap integrate multifractal q
      if fit.fluctuations.length = 0 then .ok (.nan scale q)
      else .ok (.result fit)

/-- C6: a signal with more than one dimension makes the entry point fail
with the dimensionality error no matter what the other arguments are — in
particular before any scale computation (even an invalid scale argument is
never examined) and without producing any analytical result. -/
theorem claim_C6_dimensionality (rows : List (List ℚ)) (scaleArg : List ℤ)
    (overlap integrate multifractal : Bool) (qa : QArg) :
    fractal_dfa (.two rows) scaleArg overlap integrate multifractal qa
      = .error .dimensionality := rfl

/-- Recogniser of the degenerate `np.nan` early return. -/
def isNanOut : Except DFAError DFAOut → Bool
  | .ok (.nan _ _) => true
  | _ => false

theorem findscales_ok_length (n : ℕ) (l s : List ℤ)
    (h : _fractal_dfa_findscales n l = .ok s) : 2 ≤ s.length := by
  unfold _fractal_dfa_findscales at h
  by_cases h1 : l.length < 2
  · rw [if_pos h1] at h
    cases h
  · rw [if_neg h1] at h
    by_cases h2 : npMin l < 2
    · rw [if_pos h2] at h
      cases h
    · rw [if_neg h2] at h
      by_cases h3 : (n : ℤ) ≤ npMax l
      · rw [if_pos h3] at h
        cases h
      · rw [if_neg h3] at h
        cases h
        omega

theorem dfaCompute_fluctuations_length (sig : List ℚ) (scale : List ℤ)
    (overlap integrate multifractal : Bool) (q : List ℚ) :
    (dfaCompute sig scale overlap integrate multifractal q).fluctuations.length
      = scale.length := by
  simp [dfaCompute]

/-- C10: the degenerate branch returning NaN when the fluctuation matrix is
empty is unreachable: every run of the entry point, over every input,
either fails validation or produces a completed fit — the matrix has one
row per validated scale and validation guarantees at least 2 scales. -/
theorem claim_C10_nan_branch_unreachable (signal : Signal) (scaleArg : List ℤ)
    (overlap integrate multifractal : Bool) (qa : QArg) :
    isNanOut (fractal_dfa signal scaleArg overlap integrate multifractal qa)
      = false := by
  unfold fractal_dfa
  by_cases hdim : 1 < signal.ndim
  · rw [if_pos hdim]
    rfl
  · rw [if_neg hdim]
    cases hs : _fractal_dfa_findscales signal.data.length scaleArg with
    | error e => rfl
    | ok scale =>
      have h2 : 2 ≤ scale.length := findscales_ok_length _ _ _ hs
      have hflen := dfaCompute_fluctuations_length signal.data scale
        overlap integrate multifractal (_sanitize_q qa multifractal)
      dsimp only
      rw [if_neg (fun hc => by rw [hflen] at hc; omega)]
      rfl

theorem listMean_nonneg (l : List ℚ) (h : ∀ x ∈ l, 0 ≤ x) : 0 ≤ listMean l :=
  div_nonneg (List.sum_nonneg h) (Nat.cast_nonneg _)

theorem popVar_nonneg (l : List ℚ) : 0 ≤ popVar l :=
  listMean_nonneg _ fun x hx => by
    rcases List.mem_map.mp hx with ⟨a, _, rfl⟩
    exact sq_nonneg _

theorem realMean_nonneg (l : List ℝ) (h : ∀ x ∈ l, 0 ≤ x) : 0 ≤ realMean l :=
  div_nonneg (List.sum_nonneg h) (Nat.cast_nonneg _)

theorem getD_of_forall_of_default {α : Type} (P : α → Prop) (l : List α)
    (d : α) (i : ℕ) (hl : ∀ x ∈ l, P x) (hd : P d) : P (l.getD i d) := by
  by_cases h : i < l.length
  · rw [List.getD_eq_getElem _ _ h]
    exact hl _ (List.getElem_mem h)
  · rw [List.getD_eq_default _ _ (by omega)]
    exact hd

theorem fluctuation_row_nonneg (segments trends : List (List ℚ))
    (multifractal : Bool) (q : List ℚ) :
    ∀ x ∈ _fractal_dfa_fluctuation segments trends multifractal q, 0 ≤ x := by
  intro x hx
  unfold _fractal_dfa_fluctuation at hx
  cases multifractal with
  | false =>
    rw [if_neg (by simp)] at hx
    rw [List.eq_of_mem_replicate hx]
    exact Real.sqrt_nonneg _
  | true =>
    rw [if_pos rfl] at hx
    rcases List.mem_map.mp hx with ⟨qi, _, rfl⟩
    unfold fluctuationMF
    refine Real.rpow_nonneg (realMean_nonneg _ fun y hy => ?_) _
    rcases List.mem_map.mp hy with ⟨row, _, rfl⟩
    exact Real.rpow_nonneg (by exact_mod_cast popVar_nonneg row) _

/-- C7: every entry of the fluctuation matrix produced by the pipeline is
non-negative (reading out-of-range positions as the default 0): the
monofractal entries are square roots, and the multifractal entries are
powers of means of non-negative powers of variances.  The IEEE `NaN` the
claim also tolerates has no counterpart in the exact-arithmetic embedding,
where the degenerate entries are 0. -/
theorem claim_C7_fluctuations_nonneg (sig : List ℚ) (scale : List ℤ)
    (overlap integrate multifractal : Bool) (q : List ℚ) (i j : ℕ) :
    0 ≤ ((dfaCompute sig scale overlap integrate multifractal q).fluctuations.getD
        i []).getD j 0 := by
  have hrows : ∀ row ∈ (dfaCompute sig scale overlap integrate
      multifractal q).fluctuations, ∀ x ∈ row, 0 ≤ x := by
    intro row hrow
    have : (dfaCompute sig scale overlap integrate multifractal q).fluctuations
        = scale.map fun w =>
          _fractal_dfa_fluctuation
            (_fractal_dfa_getwindow (if integrate then signalProfile sig else sig)
              sig.length w.toNat overlap)
            (_fractal_dfa_trends
              (_fractal_dfa_getwindow (if integrate then signalProfile sig else sig)
                sig.length w.toNat overlap))
            multifractal q := rfl
    rw [this] at hrow
    rcases List.mem_map.mp hrow with ⟨w, _, rfl⟩
    exact fluctuation_row_nonneg _ _ multifractal q
  exact getD_of_forall_of_default (fun y => 0 ≤ y)
    ((dfaCompute sig scale overlap integrate multifractal q).fluctuations.getD i [])
    0 j
    (getD_of_forall_of_default (fun row => ∀ x ∈ row, 0 ≤ x)
      (dfaCompute sig scale overlap integrate multifractal q).fluctuations
      [] i hrows (by intro x hx; cases hx))
    le_rfl

/-- Policy of one numpy floating-point error class. -/
inductive ErrMode
  | warn
  | ignore
deriving DecidableEq

/-- Global numpy floating-point error-reporting state (`np.geterr`): the
policies for the divide, invalid, overflow and underflow event classes. -/
structure NpErrState where
  divide : ErrMode
  invalid : ErrMode
  overflow : ErrMode
  underflow : ErrMode
deriving DecidableEq

/-- Model of `old_setting = np.seterr(divide="ignore", invalid="ignore")`:
the divide and invalid policies are relaxed, the other classes keep their
current policy, and the full previous state is returned alongside. -/
def seterrIgnoreDivInvalid (s : NpErrState) : NpErrState × NpErrState :=
  (⟨ErrMode.ignore, ErrMode.ignore, s.overflow, s.underflow⟩, s)

/-- Model of `np.seterr(**old_setting)`: every class is reset to the saved
state, and the replaced state is returned alongside. -/
def seterrRestore (s saved : NpErrState) : NpErrState × NpErrState := (saved, s)

/-- State-threaded embedding of `_slopes`: each loop iteration saves the
global error state, relaxes divide/invalid, computes the fit, and restores
the saved state. -/
noncomputable def slopesWithErrState (scale : List ℤ)
    (fluctuations : List (List ℝ)) (q : List ℚ) (s0 : NpErrState) :
    List ℝ × NpErrState :=
  (List.range q.length).foldl
    (fun acc i =>
      (acc.1 ++ [polyfitSlope (scale.map fun w => log2 ((w : ℤ) : ℝ))
          (fluctuations.map fun row => log2 (row.getD i 0))],
        (seterrRestore (seterrIgnoreDivInvalid acc.2).1
          (seterrIgnoreDivInvalid acc.2).2).1))
    ([], s0)

/-- State-threaded embedding of `_fractal_dfa_fluctuation`: the
multifractal branch brackets the power/mean computation in one
save–relax–restore pair; the monofractal branch never touches the state. -/
noncomputable def fluctuationWithErrState (segments trends : List (List ℚ))
    (multifractal : Bool) (q : List ℚ) (s0 : NpErrState) :
    List ℝ × NpErrState :=
  if multifractal then
    (q.map (fluctuationMF (detrendedOf segments trends)),
      (seterrRestore (seterrIgnoreDivInvalid s0).1 (seterrIgnoreDivInvalid s0).2).1)
  else (List.replicate q.length (fluctuationRMS (detrendedOf segments trends)), s0)

theorem foldl_saveRestore (f : ℕ → ℝ) (l : List ℕ) :
    ∀ acc : List ℝ × NpErrState,
      l.foldl (fun acc i =>
          (acc.1 ++ [f i],
            (seterrRestore (seterrIgnoreDivInvalid acc.2).1
              (seterrIgnoreDivInvalid acc.2).2).1)) acc
        = (acc.1 ++ l.map f, acc.2) := by
  induction l with
  | nil => intro acc; simp
  | cons x t ih =>
    intro acc
    rw [List.foldl_cons, ih]
    simp [seterrRestore, seterrIgnoreDivInvalid]

theorem fluctuation_row_mono (segments trends : List (List ℚ)) (q : List ℚ) :
    _fractal_dfa_fluctuation segments trends false q
      = List.replicate q.length (fluctuationRMS (detrendedOf segments trends)) := by
  unfold _fractal_dfa_fluctuation
  rw [if_neg (by simp)]

/-- C8: the global floating-point error state after the slope regression
and after the multifractal fluctuation computation equals the state before:
the divide/invalid policy is relaxed only inside and the saved full state
is written back, so the result is the same as the pure computation and no
relaxed policy leaks to the caller. -/
theorem claim_C8_errstate_restored (scale : List ℤ)
    (fluctuations : List (List ℝ)) (q : List ℚ)
    (segments trends : List (List ℚ)) (multifractal : Bool) (s : NpErrState) :
    ((slopesWithErrState scale fluctuations q s).2 = s
      ∧ (slopesWithErrState scale fluctuations q s).1 = _slopes scale fluctuations q)
    ∧ ((fluctuationWithErrState segments trends multifractal q s).2 = s
      ∧ (fluctuationWithErrState segments trends multifractal q s).1
          = _fractal_dfa_fluctuation segments trends multifractal q) := by
  have hs : slopesWithErrState scale fluctuations q s
      = (_slopes scale fluctuations q, s) := by
    unfold slopesWithErrState _slopes
    rw [foldl_saveRestore]
    simp
  refine ⟨⟨by rw [hs], by rw [hs]⟩, ?_⟩
  cases multifractal with
  | false =>
    refine ⟨rfl, ?_⟩
    rw [fluctuation_row_mono]
    rfl
  | true => exact ⟨rfl, rfl⟩

/-- Monofractal fluctuation scalar of the scale-`w` row of the pipeline. -/
noncomputable def monoRowValue (sig : List ℚ) (overlap integrate : Bool)
    (w : ℤ) : ℝ :=
  fluctuationRMS (detrendedOf
    (_fractal_dfa_getwindow (if integrate then signalProfile sig else sig)
      sig.length w.toNat overlap)
    (_fractal_dfa_trends
      (_fractal_dfa_getwindow (if integrate then signalProfile sig else sig)
        sig.length w.toNat overlap)))

theorem getD_map_lt {α β : Type} (f : α → β) (l : List α) (d : β) (i : ℕ)
    (h : i < l.length) : (l.map f).getD i d = f l[i] := by
  rw [List.getD_eq_getElem _ _ (by simpa using h)]
  simp

theorem getD_replicate_lt {α : Type} (n : ℕ) (a d : α) (j : ℕ) (h : j < n) :
    (List.replicate n a).getD j d = a := by
  rw [List.getD_eq_getElem _ _ (by simpa using h)]
  exact List.getElem_replicate _ _

theorem map_range_eq_replicate {β : Type} (m : ℕ) (g : ℕ → β)
    (h : ∀ i, i < m → g i = g 0) :
    (List.range m).map g = List.replicate m (g 0) := by
  apply List.eq_replicate_iff.mpr
  refine ⟨by simp, fun b hb => ?_⟩
  rcases List.mem_map.mp hb with ⟨i, hi, rfl⟩
  exact h i (List.mem_range.mp hi)

theorem dfaCompute_mono_fluct (sig : List ℚ) (scale : List ℤ)
    (overlap integrate : Bool) (q : List ℚ) :
    (dfaCompute sig scale overlap integrate false q).fluctuations
      = scale.map fun w =>
        List.replicate q.length (monoRowValue sig overlap integrate w) := by
  have h0 : (dfaCompute sig scale overlap integrate false q).fluctuations
      = scale.map fun w =>
        _fractal_dfa_fluctuation
          (_fractal_dfa_getwindow (if integrate then signalProfile sig else sig)
            sig.length w.toNat overlap)
          (_fractal_dfa_trends
            (_fractal_dfa_getwindow (if integrate then signalProfile sig else sig)
              sig.length w.toNat overlap)) false q := rfl
  rw [h0]
  exact List.map_congr_left fun w _ => fluctuation_row_mono _ _ q

theorem dfaCompute_mono_slopes (sig : List ℚ) (scale : List ℤ)
    (overlap integrate : Bool) (q : List ℚ) (hpos : 0 < q.length) :
    (dfaCompute sig scale overlap integrate false q).slopes
      = List.replicate q.length
        (polyfitSlope (scale.map fun w => log2 ((w : ℤ) : ℝ))
          (scale.map fun w => log2 (monoRowValue sig overlap integrate w))) := by
  have h0 : (dfaCompute sig scale overlap integrate false q).slopes
      = _slopes scale
        ((dfaCompute sig scale overlap integrate false q).fluctuations) q := rfl
  rw [h0, dfaCompute_mono_fluct]
  unfold _slopes
  have hcol : ∀ i, i < q.length →
      ((scale.map fun w =>
          List.replicate q.length (monoRowValue sig overlap integrate w)).map
        fun row => log2 (row.getD i 0))
      = scale.map fun w => log2 (monoRowValue sig overlap integrate w) := by
    intro i hi
    rw [List.map_map]
    exact List.map_congr_left fun w _ => by
      show log2 ((List.replicate q.length (monoRowValue sig overlap integrate w)).getD i 0)
        = log2 (monoRowValue sig overlap integrate w)
      rw [getD_replicate_lt _ _ _ _ hi]
  rw [map_range_eq_replicate _ _ fun i hi => by rw [hcol i hi, hcol 0 hpos]]
  rw [hcol 0 hpos]

/-- C9: when `multifractal` is false the analytical result does not depend
on the exponent values: for two runs on the same signal and parameters
whose supplied `q` arguments sanitize to non-empty exponent sets of the
same size, the fluctuation matrices are identical, every in-range row is
the single RMS scalar broadcast across all `len(q)` columns, the slope
vectors are identical, and all entries of each slope vector are equal (the
vector is a constant `replicate`). -/
theorem claim_C9_mono_independent_of_q (sig : List ℚ) (scale : List ℤ)
    (overlap integrate : Bool) (q1 q2 : List ℚ)
    (hlen : (_sanitize_q (.explicit q1) false).length
      = (_sanitize_q (.explicit q2) false).length)
    (hpos : 0 < (_sanitize_q (.explicit q1) false).length) :
    ((dfaCompute sig scale overlap integrate false
        (_sanitize_q (.explicit q1) false)).fluctuations
      = (dfaCompute sig scale overlap integrate false
        (_sanitize_q (.explicit q2) false)).fluctuations)
    ∧ (∀ i, i < scale.length →
        (dfaCompute sig scale overlap integrate false
            (_sanitize_q (.explicit q1) false)).fluctuations.getD i []
          = List.replicate (_sanitize_q (.explicit q1) false).length
            (((dfaCompute sig scale overlap integrate false
                (_sanitize_q (.explicit q1) false)).fluctuations.getD i []).getD 0 0))
    ∧ ((dfaCompute sig scale overlap integrate false
          (_sanitize_q (.explicit q1) false)).slopes
        = (dfaCompute sig scale overlap integrate false
          (_sanitize_q (.explicit q2) false)).slopes)
    ∧ ((dfaCompute sig scale overlap integrate false
          (_sanitize_q (.explicit q1) false)).slopes
        = List.replicate (_sanitize_q (.explicit q1) false).length
          ((dfaCompute sig scale overlap integrate false
            (_sanitize_q (.explicit q1) false)).slopes.getD 0 0)) := by
  have hpos2 : 0 < (_sanitize_q (.explicit q2) false).length := hlen ▸ hpos
  refine ⟨?_, ?_, ?_, ?_⟩
  · rw [dfaCompute_mono_fluct, dfaCompute_mono_fluct, hlen]
  · intro i hi
    rw [dfaCompute_mono_fluct, getD_map_lt _ _ _ _ hi,
      getD_replicate_lt _ _ _ _ hpos]
  · rw [dfaCompute_mono_slopes _ _ _ _ _ hpos,
      dfaCompute_mono_slopes _ _ _ _ _ hpos2, hlen]
  · rw [dfaCompute_mono_slopes _ _ _ _ _ hpos,
      getD_replicate_lt _ _ _ _ hpos]

/-- C9 witness: the theorem applied to a concrete signal with the supplied
exponent lists `[2]` and `[3]`, which both sanitize to singletons. -/
theorem claim_C9_witness :
    (dfaCompute [1, 2, 3, 4, 5, 6] [2, 3] true true false
        (_sanitize_q (.explicit [2]) false)).fluctuations
      = (dfaCompute [1, 2, 3, 4, 5, 6] [2, 3] true true false
        (_sanitize_q (.explicit [3]) false)).fluctuations :=
  (claim_C9_mono_independent_of_q [1, 2, 3, 4, 5, 6] [2, 3] true true [2] [3]
    (by decide) (by decide)).1

theorem range_cast_sum (w : ℕ) :
    ((List.range w).map fun (j : ℕ) => ((j : ℕ) : ℚ)).sum
      = (w : ℚ) * ((w : ℚ) - 1) / 2 := by
  induction w with
  | zero => simp
  | succ n ih =>
    rw [List.range_succ, List.map_append, List.sum_append, ih]
    simp only [List.map_cons, List.map_nil, List.sum_cons, List.sum_nil]
    push_cast
    ring

theorem range_cast_sq_sum (w : ℕ) :
    ((List.range w).map fun (j : ℕ) => ((j : ℕ) : ℚ) * ((j : ℕ) : ℚ)).sum
      = (w : ℚ) * ((w : ℚ) - 1) * (2 * (w : ℚ) - 1) / 6 := by
  induction w with
  | zero => simp
  | succ n ih =>
    rw [List.range_succ, List.map_append, List.sum_append, ih]
    simp only [List.map_cons, List.map_nil, List.sum_cons, List.sum_nil]
    push_cast
    ring

theorem zipWith_two_maps {α : Type} (op : ℚ → ℚ → ℚ) (f g : α → ℚ) (l : List α) :
    List.zipWith op (l.map f) (l.map g) = l.map fun j => op (f j) (g j) := by
  induction l with
  | nil => rfl
  | cons x t ih =>
    rw [List.map_cons, List.map_cons, List.zipWith_cons_cons, ih, List.map_cons]

theorem sum_map_comb (l : List ℕ) (A B : ℚ) :
    (l.map fun (j : ℕ) => (A * ((j : ℕ) : ℚ) + B) * ((j : ℕ) : ℚ)).sum
      = A * (l.map fun (j : ℕ) => ((j : ℕ) : ℚ) * ((j : ℕ) : ℚ)).sum
        + B * (l.map fun (j : ℕ) => ((j : ℕ) : ℚ)).sum := by
  induction l with
  | nil => simp
  | cons x t ih =>
    rw [List.map_cons, List.sum_cons, List.map_cons, List.sum_cons, List.map_cons,
      List.sum_cons, ih]
    ring

theorem zip_mul_sub_sum (y : List ℚ) :
    ∀ t xs : List ℚ, y.length = t.length → t.length = xs.length →
      (List.zipWith (fun a b => a * b) (List.zipWith (fun a b => a - b) y t) xs).sum
        = (List.zipWith (fun a b => a * b) y xs).sum
          - (List.zipWith (fun a b => a * b) t xs).sum := by
  induction y with
  | nil =>
    intro t xs h1 h2
    cases t with
    | nil =>
      cases xs with
      | nil => simp
      | cons c cs => simp at h2
    | cons b bs => simp at h1
  | cons a as ih =>
    intro t xs h1 h2
    cases t with
    | nil => simp at h1
    | cons b bs =>
      cases xs with
      | nil => simp at h2
      | cons c cs =>
        simp only [List.zipWith_cons_cons, List.sum_cons]
        rw [ih bs cs (by simpa using h1) (by simpa using h2)]
        ring

theorem zip_mul_affine_sum (r : List ℚ) :
    ∀ (xs : List ℚ) (A B : ℚ), r.length = xs.length →
      (List.zipWith (fun a b => a * b) r (xs.map fun x => A * x + B)).sum
        = A * (List.zipWith (fun a b => a * b) r xs).sum + B * r.sum := by
  induction r with
  | nil => intro xs A B h; simp
  | cons a as ih =>
    intro xs A B h
    cases xs with
    | nil => simp at h
    | cons x xs2 =>
      rw [List.map_cons, List.zipWith_cons_cons, List.sum_cons,
        List.zipWith_cons_cons, List.sum_cons, List.sum_cons,
        ih xs2 A B (by simpa using h)]
      ring

theorem zipWith_sub_add (y : List ℚ) :
    ∀ t d : List ℚ,
      List.zipWith (fun a b => a - b) y (List.zipWith (fun s u => s + u) t d)
        = List.zipWith (fun a b => a - b) (List.zipWith (fun a b => a - b) y t) d := by
  induction y with
  | nil => intro t d; simp
  | cons a as ih =>
    intro t d
    cases t with
    | nil => simp
    | cons b bs =>
      cases d with
      | nil => simp
      | cons e ds =>
        rw [List.zipWith_cons_cons, List.zipWith_cons_cons, List.zipWith_cons_cons,
          List.zipWith_cons_cons, ih]
        congr 1
        ring

theorem sum_sq_zip_sub (r : List ℚ) :
    ∀ d : List ℚ, r.length = d.length →
      ((List.zipWith (fun a b => a - b) r d).map fun a => a ^ 2).sum
        = (r.map fun a => a ^ 2).sum
          - 2 * (List.zipWith (fun a b => a * b) r d).sum
          + (d.map fun a => a ^ 2).sum := by
  induction r with
  | nil =>
    intro d h
    cases d with
    | nil => simp
    | cons e ds => simp at h
  | cons a as ih =>
    intro d h
    cases d with
    | nil => simp at h
    | cons e ds =>
      rw [List.zipWith_cons_cons, List.map_cons, List.sum_cons, List.map_cons,
        List.sum_cons, List.zipWith_cons_cons, List.sum_cons, List.map_cons,
        List.sum_cons, ih ds (by simpa using h)]
      ring

theorem lsqLinFit_fst (y : List ℚ) :
    (lsqLinFit y).1 = ((y.length : ℚ)
        * (List.zipWith (fun a b => a * b)
            ((List.range y.length).map fun (j : ℕ) => ((j : ℕ) : ℚ)) y).sum
      - ((List.range y.length).map fun (j : ℕ) => ((j : ℕ) : ℚ)).sum * y.sum)
    / ((y.length : ℚ)
        * ((((List.range y.length).map fun (j : ℕ) => ((j : ℕ) : ℚ)).map
            fun a => a * a).sum)
      - ((List.range y.length).map fun (j : ℕ) => ((j : ℕ) : ℚ)).sum
        * ((List.range y.length).map fun (j : ℕ) => ((j : ℕ) : ℚ)).sum) := rfl

theorem lsqLinFit_snd (y : List ℚ) :
    (lsqLinFit y).2 = (y.sum - (lsqLinFit y).1
        * ((List.range y.length).map fun (j : ℕ) => ((j : ℕ) : ℚ)).sum)
      / (y.length : ℚ) := rfl

/-- Residuals of the closed-form least-squares line sum to zero (the
normal equation for the constant column). -/
theorem lsq_resid_sum (y : List ℚ) :
    (List.zipWith (fun a b => a - b) y
      ((List.range y.length).map fun (j : ℕ) =>
        (lsqLinFit y).1 * ((j : ℕ) : ℚ) + (lsqLinFit y).2)).sum = 0 := by
  rw [sum_zipWith_sub _ _ (by simp), trendRow_sum]
  ring

/-- Residuals of the closed-form least-squares line are orthogonal to the
index column (the normal equation for the linear column). -/
theorem lsq_resid_dot_x (y : List ℚ) :
    (List.zipWith (fun a b => a * b)
      (List.zipWith (fun a b => a - b) y
        ((List.range y.length).map fun (j : ℕ) =>
          (lsqLinFit y).1 * ((j : ℕ) : ℚ) + (lsqLinFit y).2))
      ((List.range y.length).map fun (j : ℕ) => ((j : ℕ) : ℚ))).sum = 0 := by
  rw [zip_mul_sub_sum y _ _ (by simp) (by simp)]
  rw [zipWith_two_maps]
  rw [sum_map_comb]
  rw [List.zipWith_comm_of_comm (fun a b => a * b) (fun u v => mul_comm u v) y
    ((List.range y.length).map fun (j : ℕ) => ((j : ℕ) : ℚ))]
  rcases Nat.lt_or_ge y.length 2 with hlt | hge
  · cases y with
    | nil => simp
    | cons y0 t =>
      cases t with
      | nil => simp [List.range_succ]
      | cons y1 t2 =>
        exfalso
        simp only [List.length_cons] at hlt
        omega
  · have hSXX2 : ((((List.range y.length).map fun (j : ℕ) => ((j : ℕ) : ℚ)).map
        fun a => a * a)).sum
        = ((List.range y.length).map fun (j : ℕ) => ((j : ℕ) : ℚ) * ((j : ℕ) : ℚ)).sum := by
      rw [List.map_map]
      rfl
    have hw2 : (2 : ℚ) ≤ (y.length : ℚ) := by exact_mod_cast hge
    have hn : ((y.length : ℚ)) ≠ 0 := by linarith
    have hD : (y.length : ℚ)
        * ((List.range y.length).map fun (j : ℕ) => ((j : ℕ) : ℚ) * ((j : ℕ) : ℚ)).sum
        - ((List.range y.length).map fun (j : ℕ) => ((j : ℕ) : ℚ)).sum
          * ((List.range y.length).map fun (j : ℕ) => ((j : ℕ) : ℚ)).sum ≠ 0 := by
      rw [range_cast_sum, range_cast_sq_sum]
      have hident : (y.length : ℚ)
          * ((y.length : ℚ) * ((y.length : ℚ) - 1) * (2 * (y.length : ℚ) - 1) / 6)
          - ((y.length : ℚ) * ((y.length : ℚ) - 1) / 2)
            * ((y.length : ℚ) * ((y.length : ℚ) - 1) / 2)
          = (y.length : ℚ) ^ 2 * ((y.length : ℚ) - 1) * ((y.length : ℚ) + 1) / 12 := by
        ring
      rw [hident]
      have h1 : (0 : ℚ) < (y.length : ℚ) ^ 2 := by nlinarith
      have h3 : (0 : ℚ) < (y.length : ℚ) - 1 := by linarith
      have h4 : (0 : ℚ) < (y.length : ℚ) + 1 := by linarith
      have h5 := mul_pos (mul_pos h1 h3) h4
      intro hc
      rw [div_eq_zero_iff] at hc
      rcases hc with hc | hc
      · linarith
      · norm_num at hc
    rw [lsqLinFit_snd, lsqLinFit_fst, hSXX2]
    field_simp
    ring

theorem polyEval_pair (u v x : ℚ) : polyEval [u, v] x = u * x + v := by
  show (0 * x + u) * x + v = u * x + v
  ring

theorem trendRowOf_pair (u v : ℚ) (w : ℕ) :
    trendRowOf [u, v] w = (List.range w).map fun (j : ℕ) => u * ((j : ℕ) : ℚ) + v :=
  List.map_congr_left fun j _ => polyEval_pair u v _

/-- Quadratic decomposition: any line whose residuals satisfy both normal
equations minimises the sum of squared residuals among all lines. -/
theorem sse_decomp (y : List ℚ) (c0 c1 p q : ℚ)
    (hdx : (List.zipWith (fun a b => a * b)
      (List.zipWith (fun a b => a - b) y
        ((List.range y.length).map fun (j : ℕ) => c0 * ((j : ℕ) : ℚ) + c1))
      ((List.range y.length).map fun (j : ℕ) => ((j : ℕ) : ℚ))).sum = 0)
    (hd1 : (List.zipWith (fun a b => a - b) y
      ((List.range y.length).map fun (j : ℕ) => c0 * ((j : ℕ) : ℚ) + c1)).sum = 0) :
    sse y [c0, c1] ≤ sse y [p, q] := by
  have htr0 : sse y [c0, c1]
      = ((List.zipWith (fun a b => a - b) y
          ((List.range y.length).map fun (j : ℕ) => c0 * ((j : ℕ) : ℚ) + c1)).map
        fun a => a ^ 2).sum := by
    unfold sse
    rw [trendRowOf_pair]
  have hsplit : ((List.range y.length).map fun (j : ℕ) => p * ((j : ℕ) : ℚ) + q)
      = List.zipWith (fun s u => s + u)
        ((List.range y.length).map fun (j : ℕ) => c0 * ((j : ℕ) : ℚ) + c1)
        ((List.range y.length).map fun (j : ℕ) =>
          (p - c0) * ((j : ℕ) : ℚ) + (q - c1)) := by
    rw [zipWith_two_maps]
    exact List.map_congr_left fun j _ => by ring
  have hlen_r : (List.zipWith (fun a b => a - b) y
      ((List.range y.length).map fun (j : ℕ) => c0 * ((j : ℕ) : ℚ) + c1)).length
      = ((List.range y.length).map fun (j : ℕ) =>
          (p - c0) * ((j : ℕ) : ℚ) + (q - c1)).length := by
    rw [List.length_zipWith]
    simp
  have htr1 : sse y [p, q]
      = ((List.zipWith (fun a b => a - b) y
          ((List.range y.length).map fun (j : ℕ) => c0 * ((j : ℕ) : ℚ) + c1)).map
            fun a => a ^ 2).sum
        - 2 * (List.zipWith (fun a b => a * b)
            (List.zipWith (fun a b => a - b) y
              ((List.range y.length).map fun (j : ℕ) => c0 * ((j : ℕ) : ℚ) + c1))
            ((List.range y.length).map fun (j : ℕ) =>
              (p - c0) * ((j : ℕ) : ℚ) + (q - c1))).sum
        + (((List.range y.length).map fun (j : ℕ) =>
            (p - c0) * ((j : ℕ) : ℚ) + (q - c1)).map fun a => a ^ 2).sum := by
    unfold sse
    rw [trendRowOf_pair, hsplit, zipWith_sub_add, sum_sq_zip_sub _ _ hlen_r]
  have hdot : (List.zipWith (fun a b => a * b)
      (List.zipWith (fun a b => a - b) y
        ((List.range y.length).map fun (j : ℕ) => c0 * ((j : ℕ) : ℚ) + c1))
      ((List.range y.length).map fun (j : ℕ) =>
        (p - c0) * ((j : ℕ) : ℚ) + (q - c1))).sum = 0 := by
    have hmapd : ((List.range y.length).map fun (j : ℕ) =>
        (p - c0) * ((j : ℕ) : ℚ) + (q - c1))
        = ((List.range y.length).map fun (j : ℕ) => ((j : ℕ) : ℚ)).map
          fun x => (p - c0) * x + (q - c1) := by
      rw [List.map_map]
      rfl
    rw [hmapd, zip_mul_affine_sum _ _ _ _ (by rw [List.length_zipWith]; simp), hdx, hd1]
    ring
  have hd2 : 0 ≤ (((List.range y.length).map fun (j : ℕ) =>
      (p - c0) * ((j : ℕ) : ℚ) + (q - c1)).map fun a => a ^ 2).sum :=
    List.sum_nonneg fun x hx => by
      rcases List.mem_map.mp hx with ⟨z, _, rfl⟩
      exact sq_nonneg z
  rw [htr0, htr1, hdot]
  linarith

/-- The closed-form order-1 fit used by the pipeline is the least-squares
fit: it satisfies the general `np.polyfit` specification at order 1. -/
theorem lsqLinFit_isPolyfit (y : List ℚ) :
    IsPolyfit y 1 [(lsqLinFit y).1, (lsqLinFit y).2] := by
  refine ⟨rfl, fun c' hc' => ?_⟩
  obtain ⟨p, q, rfl⟩ : ∃ p q : ℚ, c' = [p, q] := by
    cases c' with
    | nil =>
      exfalso
      simp only [List.length_nil] at hc'
      omega
    | cons p t =>
      cases t with
      | nil =>
        exfalso
        simp only [List.length_cons, List.length_nil] at hc'
        omega
      | cons q t2 =>
        cases t2 with
        | nil => exact ⟨p, q, rfl⟩
        | cons z t3 =>
          exfalso
          simp only [List.length_cons] at hc'
          omega
  exact sse_decomp y _ _ p q (lsq_resid_dot_x y) (lsq_resid_sum y)

/-- The pipeline trend batch (order 1) satisfies the relational trend-batch
specification at order 1. -/
theorem trends_isTrendBatch (segments : List (List ℚ)) :
    IsTrendBatch segments (_fractal_dfa_trends segments) 1 := by
  refine ⟨by simp [_fractal_dfa_trends], fun i hi => ?_⟩
  refine ⟨[(lsqLinFit (segments.getD i [])).1, (lsqLinFit (segments.getD i [])).2],
    lsqLinFit_isPolyfit _, ?_⟩
  unfold _fractal_dfa_trends
  rw [getD_map_lt _ _ _ _ hi, List.getD_eq_getElem _ _ hi]
  exact (trendRowOf_pair _ _ _).symm

/-- C3: for every polynomial order at least 1 and every segment batch with
a trend batch fitted per segment by least squares at that order (so each
fit includes a constant term and every segment's residuals sum to zero),
the multifractal fluctuation computed with the single exponent `q = 2`
equals the monofractal RMS fluctuation for the same segments and trends:
the mean over segments of the `ddof = 0` variances equals the mean over
segments of the mean squared detrended values, and the fluctuation row at
`multifractal = true`, `q = [2]` coincides with the monofractal row; hence
a pipeline call with `multifractal = true` and `q = [2]` produces the same
slope vector as the monofractal path on every signal, scale set and flag
combination (the pipeline fits at the source's default order 1, certified
against the least-squares specification by `lsqLinFit_isPolyfit`). -/
theorem claim_C3_q2_reduces_to_rms (order : ℕ) (horder : 1 ≤ order)
    (segments trends : List (List ℚ))
    (hfit : IsTrendBatch segments trends order) :
    (listMean ((detrendedOf segments trends).map popVar)
      = listMean ((detrendedOf segments trends).map rowMeanSq))
    ∧ (_fractal_dfa_fluctuation segments trends true [2]
      = _fractal_dfa_fluctuation segments trends false [2])
    ∧ ∀ (sig : List ℚ) (scale : List ℤ) (overlap integrate : Bool),
        (dfaCompute sig scale overlap integrate true [2]).slopes
          = (dfaCompute sig scale overlap integrate false [2]).slopes := by
  have h12 := q2_rows_eq segments trends (trendBatch_resid_zero segments trends order hfit)
  refine ⟨h12.1, h12.2, ?_⟩
  intro sig scaleL ov intg
  have hm : (dfaCompute sig scaleL ov intg true [2]).fluctuations
      = (dfaCompute sig scaleL ov intg false [2]).fluctuations := by
    have e1 : (dfaCompute sig scaleL ov intg true [2]).fluctuations
        = scaleL.map fun w =>
          _fractal_dfa_fluctuation
            (_fractal_dfa_getwindow (if intg then signalProfile sig else sig)
              sig.length w.toNat ov)
            (_fractal_dfa_trends
              (_fractal_dfa_getwindow (if intg then signalProfile sig else sig)
                sig.length w.toNat ov)) true [2] := rfl
    have e2 : (dfaCompute sig scaleL ov intg false [2]).fluctuations
        = scaleL.map fun w =>
          _fractal_dfa_fluctuation
            (_fractal_dfa_getwindow (if intg then signalProfile sig else sig)
              sig.length w.toNat ov)
            (_fractal_dfa_trends
              (_fractal_dfa_getwindow (if intg then signalProfile sig else sig)
                sig.length w.toNat ov)) false [2] := rfl
    rw [e1, e2]
    exact List.map_congr_left fun w _ =>
      (q2_rows_eq _ _ (detrended_row_sum_zero _)).2
  show _slopes scaleL (dfaCompute sig scaleL ov intg true [2]).fluctuations [2]
      = _slopes scaleL (dfaCompute sig scaleL ov intg false [2]).fluctuations [2]
  rw [hm]

/-- C3 witness: the theorem applied at order 1 to the single segment
`[0, 1]` with its exact least-squares line `[0, 1]` (coefficients `[1, 0]`:
a perfect fit, hence a minimiser of the nonnegative objective). -/
theorem claim_C3_witness :
    listMean ((detrendedOf [[0, 1]] [[0, 1]]).map popVar)
      = listMean ((detrendedOf [[0, 1]] [[0, 1]]).map rowMeanSq) := by
  have hsse : sse [(0 : ℚ), 1] [1, 0] = 0 := by
    simp [sse, trendRowOf, polyEval, List.range_succ]
  have hfit : IsTrendBatch [[0, 1]] [[0, 1]] 1 := by
    refine ⟨rfl, fun i hi => ?_⟩
    have hi0 : i = 0 := by
      simp only [List.length_cons, List.length_nil] at hi
      omega
    subst hi0
    refine ⟨[1, 0], ⟨rfl, fun c' _ => ?_⟩, ?_⟩
    · show sse [(0 : ℚ), 1] [1, 0] ≤ sse [(0 : ℚ), 1] c'
      rw [hsse]
      exact sse_nonneg _ _
    · show ([(0 : ℚ), 1] : List ℚ) = trendRowOf [1, 0] ([(0 : ℚ), 1] : List ℚ).length
      simp [trendRowOf, polyEval, List.range_succ]
  exact (claim_C3_q2_reduces_to_rms 1 le_rfl [[0, 1]] [[0, 1]] hfit).1

end FractalDFA
